import Mathlib

/-!
Verification of `turnover_master_cron.py`: a streaming reshape-normalize-
aggregate-merge pipeline over per-category wide-format turnover tables.

Shallow embedding conventions:
* Python strings are modelled as `List Char`, with ASCII models of
  `str.upper` (`upperChar`) and `str.isalnum` (`isAlnumChar`).
* A pandas cell is modelled by `Cell`: it either carries a numeric value
  (`num`, modelled as a rational — the embedding of a float), a date
  (`dateVal`, an integer day ordinal, standing for any parsed calendar
  date), arbitrary text (`text`), or is missing (`null`, pandas NaN).
  `pd.to_numeric(errors="coerce")` succeeds exactly on numeric cells
  (returning `none` — NaN — otherwise) and `pd.to_datetime` succeeds
  exactly on date cells, raising otherwise.
* A `pd.DataFrame` loaded from a wide CSV is a `WideTable`: a date column
  (column 0) plus one named value column per instrument.
* Exceptions are modelled with `Except`: `PipeError.dateParseError` is the
  exception `pd.to_datetime` raises on an unparseable date column, and
  `PipeError.noneTypeError` is the `TypeError` raised by `len(None)` when
  `build_group` finishes with an uninitialised accumulator.
-/

namespace TurnoverMaster

/-! ### ASCII string model -/

/-- ASCII model of Python `str.upper` on one character. -/
def upperChar (c : Char) : Char :=
  if 97 ≤ c.toNat ∧ c.toNat ≤ 122 then Char.ofNat (c.toNat - 32) else c

/-- ASCII model of Python `str.isalnum` on one character. -/
def isAlnumChar (c : Char) : Bool :=
  decide ((48 ≤ c.toNat ∧ c.toNat ≤ 57) ∨ (65 ≤ c.toNat ∧ c.toNat ≤ 90) ∨
    (97 ≤ c.toNat ∧ c.toNat ≤ 122))

/-- The separator list `[" ", "-", "/", ".", "_"]` from `normalise_ticker`. -/
def seps : List Char := [' ', '-', '/', '.', '_']

/-- Python `t.split(d)[0]`: the prefix of `t` before the first occurrence of `d`
(the whole string when `d` is absent). -/
def splitHead (t : List Char) (d : Char) : List Char :=
  t.takeWhile (fun c => c != d)

/-- Source `normalise_ticker` (lines 85–89): uppercase, take the head of a
`split` at each separator in turn, then keep only alphanumeric characters.
(The Python `str(t)` coercion is outside the string model: the embedding
takes the already-stringified input.) -/
def normalise_ticker (t : List Char) : List Char :=
  (seps.foldl splitHead (t.map upperChar)).filter isAlnumChar

/-- Modelled from the spec (§4.1), for comparison with `normalise_ticker`:
uppercase, truncate at the earliest occurrence of any of the five
separators, then remove every non-alphanumeric character. -/
def normaliseTickerSpec (t : List Char) : List Char :=
  ((t.map upperChar).takeWhile (fun c => !(seps.contains c))).filter isAlnumChar

/-! ### Cells and tables -/

/-- A pandas cell as the pipeline observes it. -/
inductive Cell where
  | num (q : ℚ)
  | dateVal (d : ℤ)
  | text (s : List Char)
  | null
deriving DecidableEq

/-- Model of `pd.to_numeric(·, errors="coerce")` on one cell: numeric cells coerce,
everything else becomes NaN (`none`). -/
def toNumeric : Cell → Option ℚ
  | .num q => some q
  | _ => none

/-- Model of `pd.to_datetime` on one cell: date cells parse, everything else raises
(signalled by `none`, turned into an exception by the caller). -/
def toDatetime : Cell → Option ℤ
  | .dateVal d => some d
  | _ => none

/-- A wide-format file: column 0 holds dates (its header name is never
inspected), each further column is (instrument header, cell per row). -/
structure WideTable where
  dateHeader : List Char
  dates : List Cell
  cols : List (List Char × List Cell)
deriving DecidableEq

/-- Every value column has one cell per date row (what `pd.read_csv`
guarantees for a rectangular CSV). -/
def WideTable.WellFormed (w : WideTable) : Prop :=
  ∀ col ∈ w.cols, col.2.length = w.dates.length

/-- One row of the melted (long) frame: original date cell, the source
column's header, and that column's cell for this row. -/
structure MeltRow where
  dateRaw : Cell
  ticker : List Char
  turnover : Cell
deriving DecidableEq

/-- Source `melt_wide` (lines 76–82): `df.melt(id_vars=[df.columns[0]])`.
pandas stacks the value columns in order; for each value column the id
column is repeated row by row. -/
def melt_wide (w : WideTable) : List MeltRow :=
  w.cols.flatMap fun col =>
    (w.dates.zip col.2).map fun p => ⟨p.1, col.1, p.2⟩

/-! ### Cleaning (source lines 110–113) -/

/-- A cleaned long record, the row shape of the grouped frame:
columns `date`, `ticker`, `ticker_norm`, `turnover`. -/
structure LongRecord where
  date : ℤ
  ticker : List Char
  ticker_norm : List Char
  turnover : ℚ
deriving DecidableEq

/-- The exceptions `build_group` can raise. -/
inductive PipeError where
  | dateParseError
  | noneTypeError
deriving DecidableEq

/-- Model of `pd.to_datetime(df.iloc[:, 0])` over the rows that survived `dropna`:
each row's date cell must parse; a single failure raises. The normalised
ticker (`df["ticker"].map(normalise_ticker)`) is attached per row. -/
def parseDates : List (MeltRow × ℚ) → Except PipeError (List LongRecord)
  | [] => .ok []
  | (r, q) :: rest =>
    match toDatetime r.dateRaw with
    | none => .error .dateParseError
    | some d =>
      (parseDates rest).map fun tl =>
        ⟨d, r.ticker, normalise_ticker r.ticker, q⟩ :: tl

/-- Model of `pd.to_numeric(df["turnover"], errors="coerce")` followed by
`df.dropna(subset=["turnover"])`: each row keeps its coerced value, rows
whose coercion produced NaN disappear. -/
def coerceDrop (rows : List MeltRow) : List (MeltRow × ℚ) :=
  rows.filterMap fun r => (toNumeric r.turnover).map fun q => (r, q)

/-- Lines 110–113 of the source: coerce `turnover` to numeric
(`errors="coerce"`), drop the rows whose coercion produced NaN
(`dropna(subset=["turnover"])`), then parse the date column of the
surviving rows. `ticker_norm` is a pure per-row map, so attaching it after
the drop is equivalent to the source's attaching it before. -/
def cleanRows (rows : List MeltRow) : Except PipeError (List LongRecord) :=
  parseDates (coerceDrop rows)

/-! ### Aggregation (source lines 116–119) -/

/-- The groupby key `["date", "ticker", "ticker_norm"]`. -/
def AggKey : Type := ℤ × List Char × List Char
deriving DecidableEq

/-- The key of one record. -/
def recKey (r : LongRecord) : AggKey := (r.date, r.ticker, r.ticker_norm)

/-- Total turnover of the records carrying key `k`. -/
def sumKey (records : List LongRecord) (k : AggKey) : ℚ :=
  ((records.filter fun r => decide (recKey r = k)).map LongRecord.turnover).sum

/-- Model of `df.groupby(["date","ticker","ticker_norm"], as_index=False)
.agg(turnover=("turnover","sum"))`: one row per distinct key, carrying the
sum of `turnover` over that key's records. (pandas emits the groups in
sorted key order; the embedding uses `dedup` order — all properties below
are stated up to row order, which the spec leaves unconstrained.) -/
def groupAgg (records : List LongRecord) : List LongRecord :=
  ((records.map recKey).dedup).map fun k => ⟨k.1, k.2.1, k.2.2, sumKey records k⟩

/-! ### The merge-reducer (source lines 94–144) -/

/-- One per-file pipeline pass: melt, clean, aggregate. -/
def processFile (w : WideTable) : Except PipeError (List LongRecord) :=
  (cleanRows (melt_wide w)).map groupAgg

/-- The accumulator update of `build_group`: first file installs its
aggregate; later files are concatenated with the accumulator
(`pd.concat`) and re-grouped on the same key. -/
def mergeStep (acc : Option (List LongRecord)) (grouped : List LongRecord) :
    List LongRecord :=
  match acc with
  | none => grouped
  | some a => groupAgg (a ++ grouped)

/-- The `for key in file_list` loop of `build_group`, threading the
accumulator (`acc = None` initially). Fetching is abstracted: the loop
receives each file's `WideTable` directly. -/
def build_group_loop (acc : Option (List LongRecord)) :
    List WideTable → Except PipeError (Option (List LongRecord))
  | [] => .ok acc
  | w :: ws =>
    match processFile w with
    | .error e => .error e
    | .ok grouped => build_group_loop (some (mergeStep acc grouped)) ws

/-- Source `build_group` (lines 94–144). After the loop the source runs
`len(acc)` in the completion log line: when the file list was empty `acc`
is still `None` and Python raises `TypeError` — modelled as
`PipeError.noneTypeError`. -/
def build_group (files : List WideTable) : Except PipeError (List LongRecord) :=
  match build_group_loop none files with
  | .error e => .error e
  | .ok none => .error .noneTypeError
  | .ok (some acc) => .ok acc

/-- The pure content of the accumulator loop once every file has cleaned
successfully: starting from a first aggregate, each further file's cleaned
records are aggregated and folded in by re-grouping the concatenation. -/
def foldMerge (acc : List LongRecord) (recs : List (List LongRecord)) :
    List LongRecord :=
  recs.foldl (fun a rs => groupAgg (a ++ groupAgg rs)) acc

/-! ## Lemmas about the string model -/

theorem toNat_ofNat_valid (n : Nat) (h : n < 55296) : (Char.ofNat n).toNat = n := by
  have hv : n.isValidChar := Or.inl h
  simp [Char.ofNat, hv]
  rfl

theorem upperChar_idem (c : Char) : upperChar (upperChar c) = upperChar c := by
  unfold upperChar
  by_cases h : 97 ≤ c.toNat ∧ c.toNat ≤ 122
  · rw [if_pos h]
    have ht : (Char.ofNat (c.toNat - 32)).toNat = c.toNat - 32 :=
      toNat_ofNat_valid _ (by omega)
    rw [if_neg (by rw [ht]; omega)]
  · rw [if_neg h, if_neg h]

/-- Splitting off the head at each separator in turn is the same as a
single truncation at the earliest occurrence of any separator. -/
theorem foldl_splitHead_takeWhile (ds : List Char) (u : List Char) :
    ds.foldl splitHead u = u.takeWhile fun c => !(ds.contains c) := by
  induction ds generalizing u with
  | nil => exact (List.takeWhile_eq_self_iff.mpr fun x _ => rfl).symm
  | cons d ds ih =>
    rw [List.foldl_cons, ih (splitHead u d), splitHead, List.takeWhile_takeWhile]
    congr 1
    funext c
    cases h1 : c == d <;> cases h2 : ds.contains c <;>
      simp [List.contains_cons, h1, h2, bne] <;>
      simp_all [List.elem_iff, beq_iff_eq]

theorem normalise_ticker_eq_spec (t : List Char) :
    normalise_ticker t = normaliseTickerSpec t := by
  rw [normalise_ticker, normaliseTickerSpec, foldl_splitHead_takeWhile]

theorem mem_normalise_isAlnum {c : Char} {t : List Char}
    (h : c ∈ normalise_ticker t) : isAlnumChar c = true :=
  List.of_mem_filter h

theorem mem_normalise_upper {c : Char} {t : List Char}
    (h : c ∈ normalise_ticker t) : upperChar c = c := by
  have h1 : c ∈ seps.foldl splitHead (t.map upperChar) := List.mem_of_mem_filter h
  rw [foldl_splitHead_takeWhile] at h1
  have h2 : c ∈ t.map upperChar := (List.takeWhile_sublist _).subset h1
  obtain ⟨x, _, rfl⟩ := List.mem_map.mp h2
  exact upperChar_idem x

theorem sep_not_alnum {c : Char} (hc : isAlnumChar c = true) :
    seps.contains c = false := by
  cases hmem : seps.contains c
  · rfl
  · exfalso
    have : c ∈ seps := List.elem_iff.mp hmem
    fin_cases this <;> simp [isAlnumChar] at hc

/-- C2: `normalise_ticker` equals the spec's rule — uppercase, truncate at
the earliest occurrence of any of the five separators, keep only
alphanumeric characters — and on the spec's examples it sends `"aapl-us"`,
`"aapl us"` and `"aapl.us"` to `"AAPL"`, while an input with no
alphanumeric prefix yields the (valid) empty result. -/
theorem normalise_ticker_meets_spec :
    (∀ t : List Char, normalise_ticker t = normaliseTickerSpec t) ∧
    normalise_ticker "aapl-us".data = "AAPL".data ∧
    normalise_ticker "aapl us".data = "AAPL".data ∧
    normalise_ticker "aapl.us".data = "AAPL".data ∧
    normalise_ticker "@!".data = [] :=
  ⟨normalise_ticker_eq_spec, by decide, by decide, by decide, by decide⟩

/-! ## Lemmas about the reshaper -/

theorem zip_map_getD (name : List Char) (l1 l2 : List Cell)
    (h : l2.length = l1.length) :
    (l1.zip l2).map (fun p => (⟨p.1, name, p.2⟩ : MeltRow)) =
      (List.range l1.length).map
        (fun i => ⟨l1.getD i .null, name, l2.getD i .null⟩) := by
  induction l1 generalizing l2 with
  | nil => simp
  | cons a l1 ih =>
    cases l2 with
    | nil => simp at h
    | cons b l2 =>
      have h' : l2.length = l1.length := by simpa using h
      simp only [List.zip_cons_cons, List.map_cons, List.length_cons,
        List.range_succ_eq_map, List.map_map, List.cons.injEq]
      refine ⟨rfl, ?_⟩
      rw [ih l2 h']
      apply List.map_congr_left
      intro i _
      simp [Function.comp]

theorem flatMap_cols_enum (dates : List Cell) (cols : List (List Char × List Cell))
    (hwf : ∀ col ∈ cols, col.2.length = dates.length) :
    (cols.flatMap fun col =>
        (dates.zip col.2).map fun p => (⟨p.1, col.1, p.2⟩ : MeltRow)) =
      (List.range cols.length).flatMap fun j =>
        (List.range dates.length).map fun i =>
          ⟨dates.getD i .null, (cols.getD j ([], [])).1,
            (cols.getD j ([], [])).2.getD i .null⟩ := by
  induction cols with
  | nil => simp
  | cons col rest ih =>
    have hcol : col.2.length = dates.length := hwf col (List.mem_cons_self col rest)
    have hrest : ∀ c ∈ rest, c.2.length = dates.length := fun c hc =>
      hwf c (List.mem_cons_of_mem _ hc)
    simp only [List.flatMap_cons, List.length_cons, List.range_succ_eq_map,
      List.flatMap_map]
    congr 1
    · rw [zip_map_getD col.1 dates col.2 hcol]
      rfl
    · rw [ih hrest]
      simp only [List.flatMap_def]
      rw [List.map_congr_left]
      intro j _
      simp [Function.comp, List.getD_cons_succ]

/-- C3: for a well-formed wide table the reshaper emits exactly
`rows × (columns - 1)` long rows, ignores the date column's header name,
and enumerates one row per (original row `i`, value column `j`) pair,
carrying that pair's cells verbatim (blanks and nulls included). -/
theorem melt_wide_unpivot_spec (w : WideTable) (hwf : w.WellFormed) :
    (melt_wide w).length = w.dates.length * w.cols.length ∧
    (∀ h, melt_wide ⟨h, w.dates, w.cols⟩ = melt_wide w) ∧
    melt_wide w = ((List.range w.cols.length).flatMap fun j =>
      (List.range w.dates.length).map fun i =>
        ⟨w.dates.getD i .null, (w.cols.getD j ([], [])).1,
          (w.cols.getD j ([], [])).2.getD i .null⟩) := by
  have henum := flatMap_cols_enum w.dates w.cols hwf
  refine ⟨?_, fun h => rfl, henum⟩
  rw [show melt_wide w = _ from henum, List.length_flatMap]
  simp only [Function.comp_def, List.length_map, List.length_range]
  rw [List.map_const', List.length_range, List.sum_replicate, smul_eq_mul,
    Nat.mul_comm]

/-- Witness for C3 at the spec's end-to-end table: 2 dates × 2 value
columns melt to 4 long rows. -/
theorem melt_wide_unpivot_spec_witness :
    (melt_wide ⟨"Date".data, [.dateVal 0, .dateVal 1],
      [("AAPL".data, [.num 100, .num 200]),
       ("AAPL-US".data, [.num 1, .num 2])]⟩).length = 4 :=
  (melt_wide_unpivot_spec _ (by intro col hc; fin_cases hc <;> rfl)).1.trans (by decide)

/-! ## Lemmas about the cleaner -/

theorem coerceDrop_length (rows : List MeltRow) :
    (coerceDrop rows).length =
      (rows.filter fun r => (toNumeric r.turnover).isSome).length := by
  induction rows with
  | nil => rfl
  | cons r rest ih =>
    cases h : toNumeric r.turnover <;>
      simp [coerceDrop, List.filterMap_cons, List.filter_cons, h] <;>
      simp [coerceDrop] at ih <;> omega

theorem coerceDrop_filter (rows : List MeltRow) :
    coerceDrop (rows.filter fun r => (toNumeric r.turnover).isSome) =
      coerceDrop rows := by
  induction rows with
  | nil => rfl
  | cons r rest ih =>
    cases h : toNumeric r.turnover <;>
      simp [coerceDrop, List.filter_cons, List.filterMap_cons, h] <;>
      simpa [coerceDrop] using ih

theorem mem_coerceDrop {pr : MeltRow × ℚ} {rows : List MeltRow} :
    pr ∈ coerceDrop rows ↔ pr.1 ∈ rows ∧ toNumeric pr.1.turnover = some pr.2 := by
  constructor
  · intro h
    obtain ⟨r, hr, hf⟩ := List.mem_filterMap.mp h
    cases hq : toNumeric r.turnover with
    | none => rw [hq] at hf; simp at hf
    | some q =>
      rw [hq] at hf
      simp only [Option.map_some'] at hf
      cases hf
      exact ⟨hr, hq⟩
  · rintro ⟨h1, h2⟩
    exact List.mem_filterMap.mpr ⟨pr.1, h1, by rw [h2]; rfl⟩

theorem parseDates_ok_length {kept : List (MeltRow × ℚ)} {out : List LongRecord}
    (h : parseDates kept = .ok out) : out.length = kept.length := by
  induction kept generalizing out with
  | nil =>
    simp only [parseDates] at h
    cases h
    rfl
  | cons pr rest ih =>
    obtain ⟨r, q⟩ := pr
    simp only [parseDates] at h
    cases hd : toDatetime r.dateRaw with
    | none => rw [hd] at h; cases h
    | some d =>
      rw [hd] at h
      cases hrest : parseDates rest with
      | error e => rw [hrest] at h; cases h
      | ok tl =>
        rw [hrest] at h
        simp only [Except.map] at h
        cases h
        simpa using ih hrest

theorem parseDates_ok_mem {kept : List (MeltRow × ℚ)} {out : List LongRecord}
    (h : parseDates kept = .ok out) :
    ∀ rec ∈ out, ∃ pr ∈ kept, pr.2 = rec.turnover ∧
      rec.ticker = pr.1.ticker ∧ rec.ticker_norm = normalise_ticker pr.1.ticker ∧
      toDatetime pr.1.dateRaw = some rec.date := by
  induction kept generalizing out with
  | nil =>
    simp only [parseDates] at h
    cases h
    intro rec hrec
    simp at hrec
  | cons pr rest ih =>
    obtain ⟨r, q⟩ := pr
    simp only [parseDates] at h
    cases hd : toDatetime r.dateRaw with
    | none => rw [hd] at h; cases h
    | some d =>
      rw [hd] at h
      cases hrest : parseDates rest with
      | error e => rw [hrest] at h; cases h
      | ok tl =>
        rw [hrest] at h
        simp only [Except.map] at h
        cases h
        intro rec hrec
        rcases List.mem_cons.mp hrec with hhead | htail
        · subst hhead
          exact ⟨(r, q), List.mem_cons_self _ _, rfl, rfl, rfl, hd⟩
        · obtain ⟨pr', hpr', hrest'⟩ := ih hrest rec htail
          exact ⟨pr', List.mem_cons_of_mem _ hpr', hrest'⟩

theorem parseDates_error_eq {kept : List (MeltRow × ℚ)} {e : PipeError}
    (h : parseDates kept = .error e) : e = .dateParseError := by
  induction kept generalizing e with
  | nil => simp only [parseDates] at h; cases h
  | cons pr rest ih =>
    obtain ⟨r, q⟩ := pr
    simp only [parseDates] at h
    cases hd : toDatetime r.dateRaw with
    | none => rw [hd] at h; cases h; rfl
    | some d =>
      rw [hd] at h
      cases hrest : parseDates rest with
      | error e' =>
        rw [hrest] at h
        simp only [Except.map] at h
        cases h
        exact ih hrest
      | ok tl => rw [hrest] at h; simp only [Except.map] at h; cases h

theorem parseDates_error_of_bad {kept : List (MeltRow × ℚ)}
    (h : ∃ pr ∈ kept, toDatetime pr.1.dateRaw = none) :
    parseDates kept = .error .dateParseError := by
  induction kept with
  | nil => simp at h
  | cons pr rest ih =>
    obtain ⟨r, q⟩ := pr
    obtain ⟨pr', hpr', hbad⟩ := h
    rcases List.mem_cons.mp hpr' with hhead | htail
    · subst hhead
      simp only [parseDates, hbad]
    · simp only [parseDates]
      cases hd : toDatetime r.dateRaw with
      | none => rfl
      | some d => rw [ih ⟨pr', htail, hbad⟩]; rfl

theorem parseDates_ok_of_good {kept : List (MeltRow × ℚ)}
    (h : ∀ pr ∈ kept, (toDatetime pr.1.dateRaw).isSome = true) :
    ∃ out, parseDates kept = .ok out := by
  induction kept with
  | nil => exact ⟨[], rfl⟩
  | cons pr rest ih =>
    obtain ⟨r, q⟩ := pr
    obtain ⟨d, hd⟩ := Option.isSome_iff_exists.mp (h (r, q) (List.mem_cons_self _ _))
    obtain ⟨tl, htl⟩ := ih fun pr' hpr' => h pr' (List.mem_cons_of_mem _ hpr')
    refine ⟨⟨d, r.ticker, normalise_ticker r.ticker, q⟩ :: tl, ?_⟩
    simp only [parseDates, hd, htl, Except.map]

/-- Each cleaned record descends from a melted row whose value coerced and
whose date parsed; the record carries the coerced value, the raw ticker,
and the normalised ticker. -/
theorem cleanRows_mem_source {rows : List MeltRow} {out : List LongRecord}
    (h : cleanRows rows = .ok out) :
    ∀ rec ∈ out, ∃ r ∈ rows, toNumeric r.turnover = some rec.turnover ∧
      rec.ticker = r.ticker ∧ rec.ticker_norm = normalise_ticker r.ticker ∧
      toDatetime r.dateRaw = some rec.date := by
  intro rec hrec
  obtain ⟨pr, hpr, hq, ht, hn, hd⟩ := parseDates_ok_mem h rec hrec
  obtain ⟨hmem, hnum⟩ := mem_coerceDrop.mp hpr
  exact ⟨pr.1, hmem, by rw [hnum, hq], ht, hn, hd⟩

/-- C5: rows whose value cell fails numeric coercion are invisible to the
cleaner (deleting them first changes nothing, so they neither reach the
output nor error the batch); on success the cleaned row count equals the
count of coercible rows, hence is at most the reshaped row count, and
every cleaned record's value stems from a successfully coerced cell
(never a substituted zero). -/
theorem cleanRows_drops_uncoercible_silently (rows : List MeltRow) :
    cleanRows rows = cleanRows (rows.filter fun r => (toNumeric r.turnover).isSome) ∧
    ∀ out, cleanRows rows = .ok out →
      out.length = (rows.filter fun r => (toNumeric r.turnover).isSome).length ∧
      out.length ≤ rows.length ∧
      ∀ rec ∈ out, ∃ r ∈ rows, toNumeric r.turnover = some rec.turnover := by
  refine ⟨by rw [cleanRows, cleanRows, coerceDrop_filter], fun out hout => ?_⟩
  have hlen : out.length = (coerceDrop rows).length := parseDates_ok_length hout
  refine ⟨hlen.trans (coerceDrop_length rows), ?_, ?_⟩
  · rw [hlen, coerceDrop_length]
    exact List.length_filter_le _ _
  · intro rec hrec
    obtain ⟨r, hr, hnum, _⟩ := cleanRows_mem_source hout rec hrec
    exact ⟨r, hr, hnum⟩

/-- Witness for C5: a batch with one numeric and one non-numeric value
cell cleans to exactly the one coercible row. -/
theorem cleanRows_drops_witness :
    cleanRows ([⟨.dateVal 7, "aapl-us".data, .num 3⟩,
                ⟨.dateVal 7, "aapl-us".data, .text "n/a".data⟩] : List MeltRow) =
        .ok [⟨7, "aapl-us".data, "AAPL".data, 3⟩] ∧
      ([⟨7, "aapl-us".data, "AAPL".data, 3⟩] : List LongRecord).length =
        (([⟨.dateVal 7, "aapl-us".data, .num 3⟩,
           ⟨.dateVal 7, "aapl-us".data, .text "n/a".data⟩] : List MeltRow).filter
            fun r => (toNumeric r.turnover).isSome).length := by
  constructor
  · rfl
  · exact ((cleanRows_drops_uncoercible_silently _).2 _ (by rfl)).1

theorem processFile_error_eq {w : WideTable} {e : PipeError}
    (h : processFile w = .error e) : e = .dateParseError := by
  unfold processFile at h
  cases hc : cleanRows (melt_wide w) with
  | error e' =>
    rw [hc] at h
    simp only [Except.map] at h
    cases h
    exact parseDates_error_eq hc
  | ok out => rw [hc] at h; simp only [Except.map] at h; cases h

theorem build_group_loop_error {files : List WideTable} {w : WideTable}
    (acc : Option (List LongRecord)) (hmem : w ∈ files)
    (hbad : cleanRows (melt_wide w) = .error .dateParseError) :
    build_group_loop acc files = .error .dateParseError := by
  induction files generalizing acc with
  | nil => simp at hmem
  | cons f fs ih =>
    rcases List.mem_cons.mp hmem with rfl | htail
    · simp only [build_group_loop, processFile, hbad, Except.map]
    · simp only [build_group_loop]
      cases hp : processFile f with
      | error e =>
        have he : e = .dateParseError := processFile_error_eq hp
        subst he
        rfl
      | ok grouped => exact ih _ htail

/-- C6: a file containing a surviving row (value coerces) whose date cell
does not parse makes the cleaner raise `dateParseError`, and the whole
category run aborts with that error — no accumulator is emitted. -/
theorem dateParse_failure_aborts_category {files : List WideTable}
    {w : WideTable} (hmem : w ∈ files)
    (hbad : ∃ r ∈ melt_wide w,
      (toNumeric r.turnover).isSome = true ∧ toDatetime r.dateRaw = none) :
    cleanRows (melt_wide w) = .error .dateParseError ∧
    build_group files = .error .dateParseError := by
  obtain ⟨r, hr, hsome, hnone⟩ := hbad
  obtain ⟨q, hq⟩ := Option.isSome_iff_exists.mp hsome
  have hkept : ((r, q) : MeltRow × ℚ) ∈ coerceDrop (melt_wide w) :=
    mem_coerceDrop.mpr ⟨hr, hq⟩
  have hclean : cleanRows (melt_wide w) = .error .dateParseError :=
    parseDates_error_of_bad ⟨(r, q), hkept, hnone⟩
  refine ⟨hclean, ?_⟩
  rw [build_group, build_group_loop_error none hmem hclean]

/-- Witness for C6: a one-file category whose date column holds text. -/
theorem dateParse_failure_witness :
    cleanRows (melt_wide ⟨"Date".data, [.text "oops".data],
        [("AAPL".data, [.num 5])]⟩) = .error .dateParseError ∧
      build_group [⟨"Date".data, [.text "oops".data],
        [("AAPL".data, [.num 5])]⟩] = .error .dateParseError :=
  dateParse_failure_aborts_category (List.mem_cons_self _ _)
    ⟨⟨.text "oops".data, "AAPL".data, .num 5⟩, by decide, by decide, by decide⟩

/-- C4 counterexample: a wide table carrying the (coercible) value `-1`
cleans to a record whose `turnover` is negative, so cleaned values are not
always non-negative. -/
theorem cleanRows_negative_value_counterexample :
    cleanRows (melt_wide ⟨"Date".data, [.dateVal 0],
        [("AAPL".data, [.num (-1)])]⟩) =
      .ok [⟨0, "AAPL".data, "AAPL".data, -1⟩] ∧
    ¬ (0 ≤ (⟨0, "AAPL".data, "AAPL".data, -1⟩ : LongRecord).turnover) := by
  constructor
  · rfl
  · decide

/-- C4 amended: every cleaned record's value is a successfully coerced
numeric value (rows failing coercion are dropped, never zeroed), and it is
non-negative provided every coercible input cell is non-negative — the
cleaner itself never enforces non-negativity. -/
theorem cleanRows_value_coerced_nonneg_cond {rows : List MeltRow}
    {out : List LongRecord} (h : cleanRows rows = .ok out)
    (hnn : ∀ r ∈ rows, ∀ q, toNumeric r.turnover = some q → 0 ≤ q) :
    ∀ rec ∈ out, (∃ r ∈ rows, toNumeric r.turnover = some rec.turnover) ∧
      0 ≤ rec.turnover := by
  intro rec hrec
  obtain ⟨r, hr, hnum, _⟩ := cleanRows_mem_source h rec hrec
  exact ⟨⟨r, hr, hnum⟩, hnn r hr rec.turnover hnum⟩

/-- Witness for the amended C4 at a one-row non-negative input. -/
theorem cleanRows_value_nonneg_witness :
    (∃ r ∈ ([⟨.dateVal 7, "AAPL".data, .num 5⟩] : List MeltRow),
        toNumeric r.turnover =
          some (⟨7, "AAPL".data, "AAPL".data, 5⟩ : LongRecord).turnover) ∧
      0 ≤ (⟨7, "AAPL".data, "AAPL".data, 5⟩ : LongRecord).turnover :=
  cleanRows_value_coerced_nonneg_cond (by rfl)
    (by intro r hr q hq; fin_cases hr; cases hq; decide)
    ⟨7, "AAPL".data, "AAPL".data, 5⟩ (by decide)

/-! ## Lemmas about the aggregator -/

theorem recKey_mk (k : AggKey) (v : ℚ) :
    recKey ⟨k.1, k.2.1, k.2.2, v⟩ = k := by
  obtain ⟨a, b, c⟩ := k
  rfl

theorem LongRecord.eta (r : LongRecord) :
    (⟨r.date, r.ticker, r.ticker_norm, r.turnover⟩ : LongRecord) = r := rfl

theorem map_recKey_groupAgg (l : List LongRecord) :
    (groupAgg l).map recKey = (l.map recKey).dedup := by
  rw [groupAgg, List.map_map]
  have h : ∀ k ∈ (l.map recKey).dedup,
      (recKey ∘ fun k : AggKey =>
        (⟨k.1, k.2.1, k.2.2, sumKey l k⟩ : LongRecord)) k = k :=
    fun k _ => recKey_mk k _
  rw [List.map_congr_left h]
  exact List.map_id' _

theorem nodup_keys_groupAgg (l : List LongRecord) :
    ((groupAgg l).map recKey).Nodup := by
  rw [map_recKey_groupAgg]
  exact List.nodup_dedup _

theorem nodup_groupAgg (l : List LongRecord) : (groupAgg l).Nodup :=
  (nodup_keys_groupAgg l).of_map recKey

theorem mem_keys_groupAgg {l : List LongRecord} {k : AggKey} :
    k ∈ (groupAgg l).map recKey ↔ k ∈ l.map recKey := by
  rw [map_recKey_groupAgg]
  exact List.mem_dedup

theorem mem_groupAgg_iff {l : List LongRecord} {row : LongRecord} :
    row ∈ groupAgg l ↔
      recKey row ∈ l.map recKey ∧ row.turnover = sumKey l (recKey row) := by
  constructor
  · intro h
    obtain ⟨k, hk, hrow⟩ := List.mem_map.mp h
    have hkey : recKey row = k := by rw [← hrow]; exact recKey_mk k _
    have hval : row.turnover = sumKey l k := by rw [← hrow]
    rw [hkey]
    exact ⟨List.mem_dedup.mp hk, hval⟩
  · rintro ⟨hmem, hval⟩
    refine List.mem_map.mpr ⟨recKey row, List.mem_dedup.mpr hmem, ?_⟩
    show (⟨row.date, row.ticker, row.ticker_norm, sumKey l (recKey row)⟩ :
      LongRecord) = row
    rw [← hval]

theorem sumKey_append (a b : List LongRecord) (k : AggKey) :
    sumKey (a ++ b) k = sumKey a k + sumKey b k := by
  simp [sumKey, List.filter_append, List.map_append, List.sum_append]

theorem sumKey_perm {l1 l2 : List LongRecord} (h : List.Perm l1 l2) (k : AggKey) :
    sumKey l1 k = sumKey l2 k :=
  ((h.filter _).map LongRecord.turnover).sum_eq

theorem sumKey_eq_zero_of_not_mem {l : List LongRecord} {k : AggKey}
    (h : k ∉ l.map recKey) : sumKey l k = 0 := by
  have : l.filter (fun r => decide (recKey r = k)) = [] := by
    rw [List.filter_eq_nil_iff]
    intro r hr hk
    exact h (List.mem_map.mpr ⟨r, hr, of_decide_eq_true hk⟩)
  rw [sumKey, this]
  rfl

theorem nodup_filter_eq {l : List AggKey} (hn : l.Nodup) (k : AggKey) :
    l.filter (fun x => decide (x = k)) = if k ∈ l then [k] else [] := by
  induction l with
  | nil => simp
  | cons a rest ih =>
    obtain ⟨hnot, hrest⟩ := List.nodup_cons.mp hn
    rw [List.filter_cons]
    by_cases hak : a = k
    · subst hak
      rw [ih hrest]
      simp [hnot]
    · rw [ih hrest]
      by_cases hk : k ∈ rest <;> simp [hak, hk, List.mem_cons, Ne.symm hak]

/-- Re-aggregating an aggregate leaves every key's total unchanged. -/
theorem sumKey_groupAgg (l : List LongRecord) (k : AggKey) :
    sumKey (groupAgg l) k = sumKey l k := by
  rw [sumKey, groupAgg, List.filter_map]
  have hcomp : ((fun r => decide (recKey r = k)) ∘ fun k' : AggKey =>
      (⟨k'.1, k'.2.1, k'.2.2, sumKey l k'⟩ : LongRecord)) =
      fun k' : AggKey => decide (k' = k) := by
    funext k'
    simp [Function.comp, recKey_mk]
  rw [hcomp, nodup_filter_eq (List.nodup_dedup _) k]
  by_cases hk : k ∈ (l.map recKey).dedup
  · rw [if_pos hk]
    simp
  · rw [if_neg hk]
    rw [List.mem_dedup] at hk
    simp [sumKey_eq_zero_of_not_mem hk]

/-- Two record lists with the same key set and the same per-key totals
have permutation-equal aggregates. -/
theorem groupAgg_perm_of_equiv {l1 l2 : List LongRecord}
    (hk : ∀ k, k ∈ l1.map recKey ↔ k ∈ l2.map recKey)
    (hs : ∀ k, sumKey l1 k = sumKey l2 k) :
    List.Perm (groupAgg l1) (groupAgg l2) := by
  have hmem : ∀ row, row ∈ groupAgg l1 ↔ row ∈ groupAgg l2 := by
    intro row
    rw [mem_groupAgg_iff, mem_groupAgg_iff, hk (recKey row), hs (recKey row)]
  rw [List.perm_iff_count]
  intro row
  by_cases h1 : row ∈ groupAgg l1
  · rw [List.count_eq_one_of_mem (nodup_groupAgg l1) h1,
      List.count_eq_one_of_mem (nodup_groupAgg l2) ((hmem row).mp h1)]
  · rw [List.count_eq_zero_of_not_mem h1,
      List.count_eq_zero_of_not_mem (fun h2 => h1 ((hmem row).mpr h2))]

theorem mem_keys_append {a b : List LongRecord} {k : AggKey} :
    k ∈ (a ++ b).map recKey ↔ k ∈ a.map recKey ∨ k ∈ b.map recKey := by
  rw [List.map_append, List.mem_append]

theorem mem_keys_of_perm {l1 l2 : List LongRecord}
    (h : List.Perm l1 l2) (k : AggKey) :
    k ∈ l1.map recKey ↔ k ∈ l2.map recKey :=
  (h.map recKey).mem_iff

/-- C7: the Group Aggregator emits one row per distinct key of the input —
keys are duplicate-free and coincide with the input's key set — each row's
value being the sum of `turnover` over the records with that key; records
whose raw tickers differ literally therefore land in two distinct output
rows even when their normalised tickers agree. -/
theorem groupAgg_one_row_per_key (records : List LongRecord) :
    ((groupAgg records).map recKey).Nodup ∧
    (∀ k, k ∈ (groupAgg records).map recKey ↔ k ∈ records.map recKey) ∧
    (∀ row ∈ groupAgg records, row.turnover = sumKey records (recKey row)) ∧
    (∀ r1 ∈ records, ∀ r2 ∈ records, r1.ticker ≠ r2.ticker →
      ∃ o1 ∈ groupAgg records, ∃ o2 ∈ groupAgg records,
        o1 ≠ o2 ∧ recKey o1 = recKey r1 ∧ recKey o2 = recKey r2) := by
  refine ⟨nodup_keys_groupAgg records, fun k => mem_keys_groupAgg,
    fun row h => (mem_groupAgg_iff.mp h).2, ?_⟩
  intro r1 h1 r2 h2 hne
  have hk1 : recKey r1 ∈ (groupAgg records).map recKey :=
    mem_keys_groupAgg.mpr (List.mem_map.mpr ⟨r1, h1, rfl⟩)
  have hk2 : recKey r2 ∈ (groupAgg records).map recKey :=
    mem_keys_groupAgg.mpr (List.mem_map.mpr ⟨r2, h2, rfl⟩)
  obtain ⟨o1, ho1, hko1⟩ := List.mem_map.mp hk1
  obtain ⟨o2, ho2, hko2⟩ := List.mem_map.mp hk2
  refine ⟨o1, ho1, o2, ho2, ?_, hko1, hko2⟩
  intro heq
  apply hne
  have hkk : recKey r1 = recKey r2 := by rw [← hko1, ← hko2, heq]
  exact congrArg (fun k : AggKey => k.2.1) hkk

/-- Witness for C7: `"AAPL"` and `"AAPL-US"` both normalise to `"AAPL"`
yet produce two distinct aggregate rows. -/
theorem groupAgg_one_row_per_key_witness :
    ∃ o1 ∈ groupAgg [⟨0, "AAPL".data, "AAPL".data, 100⟩,
                     ⟨0, "AAPL-US".data, "AAPL".data, 7⟩],
      ∃ o2 ∈ groupAgg [⟨0, "AAPL".data, "AAPL".data, 100⟩,
                       ⟨0, "AAPL-US".data, "AAPL".data, 7⟩],
        o1 ≠ o2 ∧
          recKey o1 = recKey ⟨0, "AAPL".data, "AAPL".data, 100⟩ ∧
          recKey o2 = recKey ⟨0, "AAPL-US".data, "AAPL".data, 7⟩ :=
  (groupAgg_one_row_per_key _).2.2.2 _ (by decide) _ (by decide) (by decide)

/-! ## Lemmas about the merge fold -/

theorem build_group_loop_ok {files : List WideTable}
    {recs : List (List LongRecord)} (acc : List LongRecord)
    (h : List.Forall₂ (fun w rs => cleanRows (melt_wide w) = .ok rs) files recs) :
    build_group_loop (some acc) files = .ok (some (foldMerge acc recs)) := by
  induction h generalizing acc with
  | nil => rfl
  | cons hwr hrest ih =>
    simp only [build_group_loop, processFile, hwr, Except.map, mergeStep,
      foldMerge, List.foldl_cons]
    exact ih _

theorem foldMerge_perm (recs : List (List LongRecord))
    (acc base : List LongRecord) (h : List.Perm acc (groupAgg base)) :
    List.Perm (foldMerge acc recs) (groupAgg (base ++ recs.flatten)) := by
  induction recs generalizing acc base with
  | nil => simpa [foldMerge] using h
  | cons rs rest ih =>
    have hacc : List.Perm (groupAgg (acc ++ groupAgg rs))
        (groupAgg (base ++ rs)) := by
      apply groupAgg_perm_of_equiv
      · intro k
        rw [mem_keys_append, mem_keys_append, mem_keys_groupAgg,
          mem_keys_of_perm h k, mem_keys_groupAgg]
      · intro k
        rw [sumKey_append, sumKey_append, sumKey_groupAgg, sumKey_perm h k,
          sumKey_groupAgg]
    have hrec := ih (groupAgg (acc ++ groupAgg rs)) (base ++ rs) hacc
    simpa [foldMerge, List.flatten_cons, List.append_assoc] using hrec

/-- A non-empty category in which every file cleans successfully produces
an accumulator permutation-equal to one monolithic aggregation of all
files' cleaned records. -/
theorem build_group_ok {files : List WideTable} {recs : List (List LongRecord)}
    (hclean : List.Forall₂ (fun w rs => cleanRows (melt_wide w) = .ok rs) files recs)
    (hne : files ≠ []) :
    ∃ acc, build_group files = .ok acc ∧
      List.Perm acc (groupAgg recs.flatten) := by
  cases hclean with
  | nil => exact absurd rfl hne
  | cons hw hrest =>
    rename_i w rs ws rest
    refine ⟨foldMerge (groupAgg rs) rest, ?_, ?_⟩
    · rw [build_group]
      simp only [build_group_loop, processFile, hw, Except.map, mergeStep]
      rw [build_group_loop_ok (groupAgg rs) hrest]
    · have hp := foldMerge_perm rest (groupAgg rs) rs (List.Perm.refl _)
      simpa [List.flatten_cons] using hp

theorem forall₂_append_split {R : WideTable → List LongRecord → Prop}
    {A B : List WideTable} {recs : List (List LongRecord)}
    (h : List.Forall₂ R (A ++ B) recs) :
    ∃ ra rb, recs = ra ++ rb ∧ List.Forall₂ R A ra ∧ List.Forall₂ R B rb := by
  induction A generalizing recs with
  | nil => exact ⟨[], recs, rfl, List.Forall₂.nil, h⟩
  | cons w ws ih =>
    cases h with
    | cons hw hrest =>
      rename_i rs rest
      obtain ⟨ra, rb, rfl, h1, h2⟩ := ih hrest
      exact ⟨rs :: ra, rb, rfl, List.Forall₂.cons hw h1, h2⟩

/-- C1: when every file of a non-empty batch cleans successfully, the
streaming fold of `build_group` returns an accumulator equal, up to row
order, to one monolithic aggregation of the concatenation of all files'
cleaned records; and for every split of the batch into two consecutive
non-empty sub-batches, folding the two sub-batch accumulators together
(re-aggregating their union on the same key) reproduces the whole batch's
accumulator up to row order. With values embedded as rationals the
equality is exact, so it holds in particular up to any floating-point
tolerance. -/
theorem build_group_streaming_fold_refines_monolithic
    {files : List WideTable} {recs : List (List LongRecord)}
    (hclean : List.Forall₂ (fun w rs => cleanRows (melt_wide w) = .ok rs) files recs)
    (hne : files ≠ []) :
    (∃ acc, build_group files = .ok acc ∧
      List.Perm acc (groupAgg recs.flatten)) ∧
    (∀ A B, files = A ++ B → A ≠ [] → B ≠ [] →
      ∃ accA accB accAll, build_group A = .ok accA ∧ build_group B = .ok accB ∧
        build_group (A ++ B) = .ok accAll ∧
        List.Perm accAll (groupAgg (accA ++ accB))) := by
  refine ⟨build_group_ok hclean hne, ?_⟩
  intro A B hAB hA hB
  subst hAB
  obtain ⟨ra, rb, rfl, hFA, hFB⟩ := forall₂_append_split hclean
  obtain ⟨accA, hA1, hA2⟩ := build_group_ok hFA hA
  obtain ⟨accB, hB1, hB2⟩ := build_group_ok hFB hB
  obtain ⟨accAll, hAll1, hAll2⟩ := build_group_ok hclean hne
  refine ⟨accA, accB, accAll, hA1, hB1, hAll1, ?_⟩
  have hAll2' : List.Perm accAll (groupAgg (ra.flatten ++ rb.flatten)) := by
    rwa [List.flatten_append] at hAll2
  have hgoal : List.Perm (groupAgg (accA ++ accB))
      (groupAgg (ra.flatten ++ rb.flatten)) := by
    apply groupAgg_perm_of_equiv
    · intro k
      rw [mem_keys_append, mem_keys_append, mem_keys_of_perm hA2 k,
        mem_keys_of_perm hB2 k, mem_keys_groupAgg, mem_keys_groupAgg]
    · intro k
      rw [sumKey_append, sumKey_append, sumKey_perm hA2 k, sumKey_perm hB2 k,
        sumKey_groupAgg, sumKey_groupAgg]
  exact hAll2'.trans hgoal.symm

/-- Witness for C1: the spec's two-file end-to-end scenario. -/
theorem build_group_streaming_fold_witness :
    ∃ acc,
      build_group [⟨"Date".data, [.dateVal 0, .dateVal 1],
          [("AAPL".data, [.num 100, .num 200]),
           ("AAPL-US".data, [.num 1, .num 2])]⟩,
        ⟨"dt".data, [.dateVal 0, .dateVal 1],
          [("AAPL".data, [.num 50, .num 75])]⟩] = .ok acc ∧
      List.Perm acc (groupAgg
        ([[⟨0, "AAPL".data, "AAPL".data, 100⟩, ⟨1, "AAPL".data, "AAPL".data, 200⟩,
           ⟨0, "AAPL-US".data, "AAPL".data, 1⟩, ⟨1, "AAPL-US".data, "AAPL".data, 2⟩],
          [⟨0, "AAPL".data, "AAPL".data, 50⟩, ⟨1, "AAPL".data, "AAPL".data, 75⟩]].flatten)) :=
  (build_group_streaming_fold_refines_monolithic
    (List.Forall₂.cons (by rfl) (List.Forall₂.cons (by rfl) List.Forall₂.nil))
    (by simp)).1

/-- C8: on an empty file list `build_group` leaves the accumulator
uninitialised and then crashes in its completion logging with Python's
`TypeError` from `len(None)` — an accidental crash, not an empty table and
not a deliberately chosen error. -/
theorem build_group_empty_raises_typeError :
    build_group [] = .error .noneTypeError := rfl

/-- C10: `normalise_ticker` is idempotent, because every character of its
output is alphanumeric, a fixed point of uppercasing, and not a separator. -/
theorem normalise_ticker_idempotent (t : List Char) :
    normalise_ticker (normalise_ticker t) = normalise_ticker t ∧
    ∀ c ∈ normalise_ticker t,
      isAlnumChar c = true ∧ upperChar c = c ∧ seps.contains c = false := by
  refine ⟨?_, fun c hc => ⟨mem_normalise_isAlnum hc, mem_normalise_upper hc,
    sep_not_alnum (mem_normalise_isAlnum hc)⟩⟩
  have hmapped : (normalise_ticker t).map upperChar = normalise_ticker t := by
    rw [List.map_congr_left fun x hx => mem_normalise_upper hx]
    exact List.map_id' _
  have hsep : ∀ d ∈ normalise_ticker t, (!(seps.contains d)) = true := by
    intro d hd
    rw [sep_not_alnum (mem_normalise_isAlnum hd)]
    rfl
  have hfilter : ∀ d ∈ normalise_ticker t, isAlnumChar d = true := fun d hd =>
    mem_normalise_isAlnum hd
  rw [normalise_ticker_eq_spec, normaliseTickerSpec, hmapped,
    List.takeWhile_eq_self_iff.mpr hsep, List.filter_eq_self.mpr hfilter]

end TurnoverMaster
